import Mathlib

/-!
Verification development for the Frame repository (a Streamlit front-end for
OpenSeesPy frame analysis).  The two scripts, `app.py` (2D frames) and
`Test.py` (3D beams), are shallowly embedded here:

* text inputs are `List Char`; Python's `str.strip`, `str.split`,
  `str.replace` become executable functions on character lists;
* Python numbers are idealized as exact rationals `ℚ` (machine floats are
  modelled by their exact values), node/element tags keep the numeric type
  they have in the source (the 2D tables surface as float rows);
* fallible Python code (int()/float() conversion errors, failing list
  lookups, division by zero) returns `Option`;
* calls into the external OpenSees engine are modelled as an emitted trace
  of `OpsCall` events; the engine itself is external to the repository and
  is assumed to accept every call.
-/

namespace Frame

/-- Python `str` whitespace characters relevant to ASCII text: space, tab,
newline, carriage return, vertical tab, form feed. -/
def isPyWs (c : Char) : Bool :=
  c = ' ' || c = '\t' || c = '\x0a' || c = '\x0d' || c = '\x0b' || c = '\x0c'

/-- Python `line.replace(",", " ")`: a character-wise replacement since both
the pattern and the replacement are single characters. -/
def replaceComma (s : List Char) : List Char :=
  s.map (fun c => if c = ',' then ' ' else c)

/-- Remove trailing whitespace (the right half of Python `str.strip()`). -/
def dropTrailingWs (s : List Char) : List Char :=
  (s.reverse.dropWhile isPyWs).reverse

/-- Python `str.strip()` with no argument: remove leading and trailing
whitespace. -/
def pyStrip (s : List Char) : List Char :=
  dropTrailingWs (s.dropWhile isPyWs)

/-- Python `str.split(sep)` for a one-character separator: split at every
occurrence, keeping empty pieces (`"a,,b".split(",") == ["a","","b"]`,
`"".split(",") == [""]`). -/
def splitChar (sep : Char) (s : List Char) : List (List Char) :=
  s.splitOnP (fun c => decide (c = sep))

/-- Python `str.split()` with no argument: maximal runs of non-whitespace
characters, with no empty tokens (`" a  b ".split() == ["a","b"]`,
`"".split() == []`). -/
def wsTokens (s : List Char) : List (List Char) :=
  (s.splitOnP isPyWs).filter (fun t => !t.isEmpty)

/-- Numeric value of a string of decimal digits, most significant first. -/
def digitsVal (ds : List Char) : Nat :=
  ds.foldl (fun a c => a * 10 + (c.toNat - 48)) 0

/-- Python `int(x)` applied to a float: truncation toward zero. -/
def pyTrunc (q : ℚ) : Int :=
  if q < 0 then -(Int.floor (-q)) else Int.floor q

/-- Python `int(s)` on a string token, modelled for ordinary decimal
spellings: optional surrounding whitespace, an optional sign, then a
nonempty run of ASCII digits.  (Underscore digit separators and non-ASCII
digits, which CPython also accepts, are outside the modelled token
grammar.)  `none` is a `ValueError`. -/
def pyIntOfStr (s : List Char) : Option Int :=
  let t := pyStrip s
  let p := match t with
    | '+' :: r => ((1 : Int), r)
    | '-' :: r => ((-1 : Int), r)
    | r => ((1 : Int), r)
  if !p.2.isEmpty && p.2.all Char.isDigit then some (p.1 * digitsVal p.2) else none

/-- Ten to an integer power, as an exact rational. -/
def qpow10 (k : Int) : ℚ :=
  if 0 ≤ k then (10 : ℚ) ^ k.toNat else 1 / (10 : ℚ) ^ (-k).toNat

/-- Python `float(s)` on a string token, modelled by the exact rational value
of the decimal literal: optional surrounding whitespace and sign, then
`digits [. digits]` or `. digits`, then an optional exponent
`(e|E) [sign] digits`.  (The spellings `inf`/`nan` and underscore digit
separators are outside the modelled grammar, and the binary64 rounding of
CPython floats is idealized away.)  `none` is a `ValueError`. -/
def pyFloatOfStr (s : List Char) : Option ℚ :=
  let t := pyStrip s
  let p := match t with
    | '+' :: r => ((1 : ℚ), r)
    | '-' :: r => ((-1 : ℚ), r)
    | r => ((1 : ℚ), r)
  let sgn := p.1
  let u := p.2
  let ip := u.takeWhile Char.isDigit
  let r1 := u.dropWhile Char.isDigit
  let fr := match r1 with
    | '.' :: r => (r.takeWhile Char.isDigit, r.dropWhile Char.isDigit, true)
    | r => ([], r, false)
  let fp := fr.1
  let r2 := fr.2.1
  let hasDot := fr.2.2
  if ip.isEmpty && (!hasDot || fp.isEmpty) then none
  else
    let mant : ℚ := (digitsVal ip : ℚ) + (digitsVal fp : ℚ) / (10 : ℚ) ^ fp.length
    match r2 with
    | [] => some (sgn * mant)
    | e :: r3 =>
      if e = 'e' || e = 'E' then
        let q := match r3 with
          | '+' :: r => ((1 : Int), r)
          | '-' :: r => ((-1 : Int), r)
          | r => ((1 : Int), r)
        if !q.2.isEmpty && q.2.all Char.isDigit then
          some (sgn * mant * qpow10 (q.1 * digitsVal q.2))
        else none
      else none

/-- A parsed Python numeric value: either an `int` or a `float` (idealized
as an exact rational). -/
inductive PyVal where
  | int (n : Int)
  | float (q : ℚ)
deriving DecidableEq

/-- The elementwise conversion of `parse_input` (app.py line 19):
`float(p) if '.' in p or 'e' in p.lower() else int(p)`. -/
def coerceToken (p : List Char) : Option PyVal :=
  if p.contains '.' || (p.map Char.toLower).contains 'e' then
    (pyFloatOfStr p).map PyVal.float
  else
    (pyIntOfStr p).map PyVal.int

/-- Python list-comprehension over `Option`-valued conversions: the first
failure aborts the whole comprehension. -/
def mapOpt (f : α → Option β) : List α → Option (List β)
  | [] => some []
  | a :: as =>
    match f a with
    | none => none
    | some b => (mapOpt f as).map (fun bs => b :: bs)

/-- The token list of one input line (app.py line 17):
`line.strip().replace(",", " ").split()`. -/
def tokensOf (line : List Char) : List (List Char) :=
  wsTokens (replaceComma (pyStrip line))

/-- The loop of `parse_input` (app.py lines 16-19) over the list of lines:
a line is kept when it has at least `n` tokens, in which case its first `n`
tokens are converted; a conversion failure aborts with `none`. -/
def parseLines (n : Nat) : List (List Char) → Option (List (List PyVal))
  | [] => some []
  | line :: rest =>
    let parts := tokensOf line
    if n ≤ parts.length then
      match mapOpt coerceToken (parts.take n) with
      | none => none
      | some row => (parseLines n rest).map (fun d => row :: d)
    else parseLines n rest

/-- app.py lines 13-20, `parse_input(text, n_cols)`:
`text.strip().split("\n")`, then the per-line loop. -/
def parse_input (text : List Char) (n_cols : Nat) : Option (List (List PyVal)) :=
  parseLines n_cols (splitChar '\x0a' (pyStrip text))

/-! ## Calls to the external OpenSees engine

The engine is an external collaborator; each `ops.*` invocation is modelled
as an emitted event.  String arguments are carried verbatim; numeric
arguments are exact rationals (with `Int`/`Nat` where the script passes a
Python int). -/

inductive OpsCall where
  | wipe
  | modelCmd (ndm ndf : Nat)
  | node (tag : ℚ) (coords : List ℚ)
  | fix (tag : ℚ) (flags : List ℚ)
  | geomTransf (kind : String) (tag : Int) (vec : List ℚ)
  | element (kind : String) (tag : Int) (args : List ℚ)
  | timeSeries (kind : String) (tag : Int)
  | pattern (kind : String) (tag : Int) (tsTag : Int)
  | load (tag : ℚ) (comps : List ℚ)
  | eleLoad (tag : ℚ) (kind : String) (comps : List ℚ)
  | mass (tag : ℚ) (comps : List ℚ)
  | constraints (kind : String)
  | numberer (kind : String)
  | system (kind : String)
  | test (kind : String) (tol : ℚ) (iters : Nat)
  | algorithm (kind : String)
  | integrator (kind : String) (factor : ℚ)
  | analysisCmd (kind : String)
  | analyze (steps : Nat)
  | eigen (n : Nat)
deriving DecidableEq

/-- The configuration calls a membership test recognises (the fixed analysis
pipeline: constraint handler, numberer, system, convergence test, algorithm,
integrator, analysis type, and the solve trigger). -/
def isConfigCall : OpsCall → Bool
  | .constraints _ => true
  | .numberer _ => true
  | .system _ => true
  | .test _ _ _ => true
  | .algorithm _ => true
  | .integrator _ _ => true
  | .analysisCmd _ => true
  | .analyze _ => true
  | _ => false

def isAnalyzeCall : OpsCall → Bool
  | .analyze _ => true
  | _ => false

/-- app.py lines 74-81 and Test.py lines 96-103: the identical hard-coded
analysis configuration block, ending in one static solve step. -/
def analysisConfigCalls : List OpsCall :=
  [ .constraints ("Transformation"), .numberer ("RCM"), .system ("BandGeneral"),
    .test ("NormDispIncr") (1 / 1000000) 6, .algorithm ("Linear"),
    .integrator ("LoadControl") 1, .analysisCmd ("Static"), .analyze 1 ]

/-! ## The 2D script (app.py) -/

/-- Fixed section properties (app.py lines 9-11). -/
def Aprop : ℚ := 2 / 1000
def Eprop : ℚ := 200000000000
def Izprop : ℚ := 16 / 1000000

/-- One row of the node table: `[tag, x, y]`.  The Streamlit data editor
hands the script a float matrix, so the tag is numeric, not specifically an
integer. -/
structure Node2 where
  tag : ℚ
  x : ℚ
  y : ℚ
deriving DecidableEq

/-- One sub-element created by the discretization loop:
`ops.element('elasticBeamColumn', ele_counter, prev_node, new_node_tag, ...)`. -/
structure ElemRec where
  tag : Nat
  ni : ℚ
  nj : ℚ
deriving DecidableEq

/-- app.py line 39: `next((int(d[1]) for d in discretizations if d[0] == tag), 1)` —
the subdivision count of element `tag`, defaulting to 1. -/
def subdivisionFor (discretizations : List (ℚ × ℚ)) (tag : ℚ) : Int :=
  match discretizations.find? (fun d => decide (d.1 = tag)) with
  | some d => pyTrunc d.2
  | none => 1

/-- Python `max(list)` (`none` models the `ValueError` on an empty list). -/
def listMax : List ℚ → Option ℚ
  | [] => none
  | a :: as => some (as.foldl max a)

/-- State threaded through the discretization loop of app.py lines 46-60:
the (mutated) node list, the sub-elements created for the current element,
the emitted engine calls, `prev_node`, and `ele_counter`. -/
structure DiscSt where
  nodes : List Node2
  elems : List ElemRec
  trace : List OpsCall
  prev : ℚ
  ec : Nat
deriving DecidableEq

/-- One iteration of `for i in range(1, subdivision + 1)` (app.py lines
47-60), at loop counter `i = j + 1`.  When `i < subdivision` a fresh node
one past the current maximum tag is interpolated and appended; on the last
iteration the far endpoint is reused.  `(listMax …).getD 0` stands for
Python `max(...)`, whose empty-list error branch is unreachable here: the
node list contains at least the located endpoints whenever the loop runs. -/
def discStep (xi yi dx dy jNode : ℚ) (N : Int) (st : DiscSt) (j : Nat) : DiscSt :=
  let i : Int := (j : Int) + 1
  let ins :=
    if i < N then
      let t := (listMax (st.nodes.map Node2.tag)).getD 0 + 1
      let nx := xi + (i : ℚ) * dx
      let ny := yi + (i : ℚ) * dy
      (st.nodes ++ [⟨t, nx, ny⟩], st.trace ++ [.node t [nx, ny]], t)
    else (st.nodes, st.trace, jNode)
  { nodes := ins.1
    elems := st.elems ++ [⟨st.ec, st.prev, ins.2.2⟩]
    trace := ins.2.1 ++ [.element ("elasticBeamColumn") (st.ec : Int)
      [st.prev, ins.2.2, Aprop, Eprop, Izprop, 1]]
    prev := ins.2.2
    ec := st.ec + 1 }

/-- app.py lines 38-60, the body of `for tag, iNode, jNode in elements`:
look up the subdivision count and both endpoints (first match on the tag,
`none` models the `IndexError` when an endpoint is absent), fail on a zero
subdivision (`ZeroDivisionError`), then run the subdivision loop.
`range(1, subdivision + 1)` is iterated as `j ∈ range subdivision.toNat`
with `i = j + 1`, which is empty for nonpositive counts exactly as in
Python. -/
def discretizeElement (discretizations : List (ℚ × ℚ)) (nodes : List Node2)
    (trace : List OpsCall) (ec : Nat) (e : ℚ × ℚ × ℚ) : Option DiscSt :=
  let N := subdivisionFor discretizations e.1
  match nodes.find? (fun n => decide (n.tag = e.2.1)),
        nodes.find? (fun n => decide (n.tag = e.2.2)) with
  | some ni, some nj =>
    if N = 0 then none
    else
      let dx := (nj.x - ni.x) / (N : ℚ)
      let dy := (nj.y - ni.y) / (N : ℚ)
      some ((List.range N.toNat).foldl (discStep ni.x ni.y dx dy e.2.2 N)
        ⟨nodes, [], trace, e.2.1, ec⟩)
  | _, _ => none

/-- Outcome of the whole discretization stage: final node list, emitted
calls, created sub-elements, final element counter, and whether the stage
ran to completion (`ok = false` models an exception escaping `run_analysis`
after the mutations made so far). -/
structure DiscRun where
  nodes : List Node2
  trace : List OpsCall
  elems : List ElemRec
  ec : Nat
  ok : Bool
deriving DecidableEq

/-- app.py lines 38-60: the discretization loop over all elements. -/
def runDiscretization (discretizations : List (ℚ × ℚ)) :
    List (ℚ × ℚ × ℚ) → List Node2 → List OpsCall → List ElemRec → Nat → DiscRun
  | [], nodes, trace, elems, ec => ⟨nodes, trace, elems, ec, true⟩
  | e :: es, nodes, trace, elems, ec =>
    match discretizeElement discretizations nodes trace ec e with
    | none => ⟨nodes, trace, elems, ec, false⟩
    | some st => runDiscretization discretizations es st.nodes st.trace (elems ++ st.elems) st.ec

/-- First-match overwrite of an association list, as Python dict assignment
`Ew[eleTag] = value` (insertion at the end when the key is new). -/
def updateAssoc (l : List (ℚ × ℚ × ℚ)) (k : ℚ) (v : ℚ × ℚ) : List (ℚ × ℚ × ℚ) :=
  match l with
  | [] => [(k, v.1, v.2)]
  | kv :: rest =>
    if kv.1 = k then (k, v.1, v.2) :: rest
    else kv :: updateAssoc rest k v

/-- The caller-supplied model of the 2D script (the six tables of app.py,
each a float matrix from the data editor). -/
structure Model2D where
  nodes : List Node2
  elements : List (ℚ × ℚ × ℚ)
  point_loads : List (ℚ × ℚ × ℚ × ℚ)
  uniform_loads : List (ℚ × ℚ × ℚ)
  boundary_conds : List (ℚ × ℚ × ℚ × ℚ)
  discretizations : List (ℚ × ℚ)

/-- Result of `run_analysis`: the node list as left in the caller's model
(appended to in place by the discretization loop), the full engine-call
trace, the `Ew` dictionary, and whether the function returned normally. -/
structure RunOut where
  nodes : List Node2
  trace : List OpsCall
  Ew : List (ℚ × ℚ × ℚ)
  ok : Bool

/-- app.py lines 22-83, `run_analysis`: wipe and rebuild the model, run the
discretization loop, apply loads, then the fixed analysis configuration.
When the discretization stage fails, the exception propagates: the calls
issued so far are the trace, nothing is returned (`ok = false`), and the
node list keeps the appends already performed. -/
def run_analysis (m : Model2D) : RunOut :=
  let pre : List OpsCall :=
    [.wipe, .modelCmd 2 3]
      ++ m.nodes.map (fun n => .node n.tag [n.x, n.y])
      ++ m.boundary_conds.map (fun bc => .fix bc.1 [bc.2.1, bc.2.2.1, bc.2.2.2])
      ++ [.geomTransf ("Linear") 1 []]
  let d := runDiscretization m.discretizations m.elements m.nodes [] [] 1
  if d.ok then
    let Ew0 := d.elems.map (fun e => ((e.tag : ℚ), (0 : ℚ), (0 : ℚ)))
    let Ew := m.uniform_loads.foldl (fun ew ul => updateAssoc ew ul.1 (ul.2.1, ul.2.2)) Ew0
    { nodes := d.nodes
      trace := pre ++ d.trace
        ++ [.timeSeries ("Constant") 1, .pattern ("Plain") 1 1]
        ++ m.point_loads.map (fun l => .load l.1 [l.2.1, l.2.2.1, l.2.2.2])
        ++ m.uniform_loads.map (fun ul => .eleLoad ul.1 ("-beamUniform") [ul.2.1, ul.2.2])
        ++ analysisConfigCalls
      Ew := Ew
      ok := true }
  else
    { nodes := d.nodes, trace := pre ++ d.trace, Ew := [], ok := false }

/-! ## The deformed-shape and force-diagram scale factors (app.py lines 175-216) -/

/-- Python true division, which raises `ZeroDivisionError` on a zero
denominator. -/
def pyDiv (a b : ℚ) : Option ℚ :=
  if b = 0 then none else some (a / b)

/-- app.py lines 177-178: `max(coords) - min(coords) if coords else 1.0`. -/
def axisRange (l : List ℚ) : ℚ :=
  match l with
  | [] => 1
  | a :: as => as.foldl max a - as.foldl min a

/-- app.py lines 180-187: collect `abs(ops.nodeDisp(tag, 1))` and
`abs(ops.nodeDisp(tag, 2))` per node, where `disp` is the engine's
displacement query (`none` models a raised exception).  The bare `except:
continue` skips to the next node, keeping whatever was appended before the
failure. -/
def collectDisps (disp : ℚ → Nat → Option ℚ) : List Node2 → List ℚ × List ℚ
  | [] => ([], [])
  | n :: rest =>
    match disp n.tag 1 with
    | none => collectDisps disp rest
    | some u1 =>
      match disp n.tag 2 with
      | none =>
        let r := collectDisps disp rest
        (|u1| :: r.1, r.2)
      | some u2 =>
        let r := collectDisps disp rest
        (|u1| :: r.1, |u2| :: r.2)

/-- app.py lines 189-190: `max(vals) if vals else 0.0`. -/
def maxOrZero (l : List ℚ) : ℚ :=
  (listMax l).getD 0

/-- app.py lines 175-194: the deformed-shape scale factor
`min(sfac_x, sfac_y)`, with each axis factor `0.01 * range / u_max` guarded
by `if u_max > 0 else 1.0`. -/
def defoSfac (disp : ℚ → Nat → Option ℚ) (nodes : List Node2) : Option ℚ := do
  let xr := axisRange (nodes.map Node2.x)
  let yr := axisRange (nodes.map Node2.y)
  let uv := collectDisps disp nodes
  let uxmax := maxOrZero uv.1
  let uymax := maxOrZero uv.2
  let sfacx ← if 0 < uxmax then pyDiv (1 / 100 * xr) uxmax else some 1
  let sfacy ← if 0 < uymax then pyDiv (1 / 100 * yr) uymax else some 1
  some (min sfacx sfacy)

/-- app.py lines 204-206 and 214-216: the force-diagram scale factor
`1.0 / maxAbs if maxAbs != 0 else 1.0` with `maxAbs = max(abs(lo), abs(hi))`,
used identically for the moment ('M') and shear ('T') diagrams. -/
def diagSfac (lo hi : ℚ) : Option ℚ :=
  let maxAbs := max |lo| |hi|
  if maxAbs ≠ 0 then pyDiv 1 maxAbs else some 1

/-! ## The 3D script (Test.py)

The module-level driver parses six sidebar text areas (comma-separated
fields, one record per line) and issues the corresponding engine calls,
then the same fixed analysis configuration, then an eigenvalue extraction.
A `ValueError` from `float()`/`int()` or a wrong field count aborts the
script (`none`). -/

/-- The lines of one text area: `s.strip().split('\n')`. -/
def areaLines (s : List Char) : List (List Char) :=
  splitChar '\x0a' (pyStrip s)

/-- `map(float, line.strip().split(','))`. -/
def parseFloats (line : List Char) : Option (List ℚ) :=
  mapOpt pyFloatOfStr (splitChar ',' (pyStrip line))

/-- `list(map(int, line.strip().split(',')))`. -/
def parseInts (line : List Char) : Option (List Int) :=
  mapOpt pyIntOfStr (splitChar ',' (pyStrip line))

/-- Test.py lines 64-66: `nid, x, y, z = map(float, ...)` (exactly four
fields), then `ops.node(int(nid), x, y, z)`. -/
def nodeCallsOf (s : List Char) : Option (List OpsCall) :=
  mapOpt (fun line => do
    let vs ← parseFloats line
    match vs with
    | [nid, x, y, z] => some (OpsCall.node ((pyTrunc nid : Int) : ℚ) [x, y, z])
    | _ => none) (areaLines s)

/-- Test.py lines 69-71: `tag, x, y, z = map(float, ...)`, then
`ops.geomTransf('Linear', int(tag), x, y, z)`. -/
def transfCallsOf (s : List Char) : Option (List OpsCall) :=
  mapOpt (fun line => do
    let vs ← parseFloats line
    match vs with
    | [tag, x, y, z] => some (OpsCall.geomTransf ("Linear") (pyTrunc tag) [x, y, z])
    | _ => none) (areaLines s)

/-- Test.py lines 74-76: `parts = list(map(int, ...))`, then
`ops.fix(parts[0], *parts[1:])` (an empty line fails inside `int`, so
`parts` is never empty when reached). -/
def fixCallsOf (s : List Char) : Option (List OpsCall) :=
  mapOpt (fun line => do
    let vs ← parseInts line
    match vs with
    | p0 :: rest => some (OpsCall.fix (p0 : ℚ) (rest.map (fun i => (i : ℚ))))
    | [] => none) (areaLines s)

/-- Test.py lines 79-81: `parts = list(map(float, ...))`, then
`ops.mass(int(parts[0]), *parts[1:])`. -/
def massCallsOf (s : List Char) : Option (List OpsCall) :=
  mapOpt (fun line => do
    let vs ← parseFloats line
    match vs with
    | p0 :: rest => some (OpsCall.mass ((pyTrunc p0 : Int) : ℚ) rest)
    | [] => none) (areaLines s)

/-- Test.py lines 84-86: ten float fields, then
`ops.element('elasticBeamColumn', int(eid), int(ni), int(nj), A, E, G, J, Iy, Iz, int(trans))`. -/
def elemCallsOf (s : List Char) : Option (List OpsCall) :=
  mapOpt (fun line => do
    let vs ← parseFloats line
    match vs with
    | [eid, ni, nj, a, e, g, j, iy, iz, tr] =>
      some (OpsCall.element ("elasticBeamColumn") (pyTrunc eid)
        [((pyTrunc ni : Int) : ℚ), ((pyTrunc nj : Int) : ℚ), a, e, g, j, iy, iz,
          ((pyTrunc tr : Int) : ℚ)])
    | _ => none) (areaLines s)

/-- Test.py lines 91-93: `parts = list(map(float, ...))`, then
`ops.load(int(parts[0]), *parts[1:])`. -/
def loadCallsOf (s : List Char) : Option (List OpsCall) :=
  mapOpt (fun line => do
    let vs ← parseFloats line
    match vs with
    | p0 :: rest => some (OpsCall.load ((pyTrunc p0 : Int) : ℚ) rest)
    | [] => none) (areaLines s)

/-- Test.py lines 60-115: the module-level pipeline of engine calls — model
reset and definition from the six parsed text areas, the fixed analysis
configuration with one solve step, then `ops.eigen(6)`.  (The plotting
helper calls are to an external library and are not engine commands.) -/
def test3d_run (node_str elem_str trans_str fix_str mass_str load_str : List Char) :
    Option (List OpsCall) := do
  let nodeCalls ← nodeCallsOf node_str
  let transCalls ← transfCallsOf trans_str
  let fixCalls ← fixCallsOf fix_str
  let massCalls ← massCallsOf mass_str
  let elemCalls ← elemCallsOf elem_str
  let loadCalls ← loadCallsOf load_str
  some ([OpsCall.wipe, OpsCall.modelCmd 3 6]
    ++ nodeCalls ++ transCalls ++ fixCalls ++ massCalls ++ elemCalls
    ++ [OpsCall.timeSeries ("Constant") 1, OpsCall.pattern ("Plain") 1 1]
    ++ loadCalls
    ++ analysisConfigCalls
    ++ [OpsCall.eigen 6])

/-! ## Derived forms of `parse_input` -/

/-- The lines of the input that `parse_input` keeps: those with at least
`n` tokens. -/
def keptLines (text : List Char) (n : Nat) : List (List Char) :=
  (splitChar '\x0a' (pyStrip text)).filter (fun l => decide (n ≤ (tokensOf l).length))

/-- The converted row a kept line yields: its first `n` tokens coerced. -/
def rowOf (n : Nat) (line : List Char) : Option (List PyVal) :=
  mapOpt coerceToken ((tokensOf line).take n)

theorem mapOpt_eq_some {f : α → Option β} :
    ∀ {l : List α} {r : List β},
      mapOpt f l = some r ↔ List.Forall₂ (fun a b => f a = some b) l r := by
  intro l
  induction l with
  | nil =>
    intro r
    simp [mapOpt, List.forall₂_nil_left_iff, eq_comm]
  | cons a as ih =>
    intro r
    cases hfa : f a with
    | none =>
      simp [mapOpt, hfa, List.forall₂_cons_left_iff]
    | some b =>
      constructor
      · intro h
        simp only [mapOpt, hfa] at h
        obtain ⟨r', hr', rfl⟩ := Option.map_eq_some'.mp h
        exact List.Forall₂.cons hfa (ih.mp hr')
      · intro h
        cases h with
        | cons hab hrest =>
          rw [hfa] at hab
          injection hab with hb
          subst hb
          simp only [mapOpt, hfa, ih.mpr hrest, Option.map_some']

theorem mapOpt_length {f : α → Option β} {l : List α} {r : List β}
    (h : mapOpt f l = some r) : r.length = l.length :=
  ((mapOpt_eq_some.mp h).length_eq).symm

theorem mapOpt_isSome {f : α → Option β} :
    ∀ {l : List α}, (∀ a ∈ l, (f a).isSome) → ∃ r, mapOpt f l = some r := by
  intro l
  induction l with
  | nil => exact fun _ => ⟨[], rfl⟩
  | cons a as ih =>
    intro h
    obtain ⟨b, hb⟩ := Option.isSome_iff_exists.mp (h a (List.mem_cons_self a as))
    obtain ⟨r, hr⟩ := ih (fun x hx => h x (List.mem_cons_of_mem a hx))
    exact ⟨b :: r, by simp [mapOpt, hb, hr]⟩

/-- The per-line loop of `parse_input` is the conversion of the kept lines,
aborting at the first conversion failure. -/
theorem parseLines_eq (n : Nat) (L : List (List Char)) :
    parseLines n L =
      mapOpt (rowOf n) (L.filter (fun l => decide (n ≤ (tokensOf l).length))) := by
  induction L with
  | nil => rfl
  | cons line rest ih =>
    by_cases h : n ≤ (tokensOf line).length
    · simp only [parseLines, h, if_pos, List.filter_cons, decide_eq_true_eq, mapOpt, rowOf]
      cases mapOpt coerceToken ((tokensOf line).take n) with
      | none => rfl
      | some row => simp [ih]
    · simp only [parseLines, h, if_neg, List.filter_cons, decide_eq_true_eq, if_false]
      simpa [h] using ih

/-- `parse_input` in terms of kept lines and per-row conversion. -/
theorem parse_input_eq (text : List Char) (n : Nat) :
    parse_input text n = mapOpt (rowOf n) (keptLines text n) :=
  parseLines_eq n (splitChar '\x0a' (pyStrip text))

theorem keptLines_tokens {text : List Char} {n : Nat} {l : List Char}
    (h : l ∈ keptLines text n) : n ≤ (tokensOf l).length := by
  have := List.of_mem_filter h
  simpa using this

/-- C4 (helper): a successfully coerced token is an `int` exactly when the
token has no decimal point and no exponent marker. -/
theorem coerceToken_int_iff (tok : List Char) (v : PyVal) (h : coerceToken tok = some v) :
    (∃ m, v = PyVal.int m) ↔
      (tok.contains '.' = false ∧ (tok.map Char.toLower).contains 'e' = false) := by
  by_cases hc : (tok.contains '.' || (tok.map Char.toLower).contains 'e') = true
  · rw [coerceToken, if_pos hc] at h
    obtain ⟨q, _, rfl⟩ := Option.map_eq_some'.mp h
    simp only [Bool.or_eq_true] at hc
    constructor
    · rintro ⟨m, hm⟩; cases hm
    · rintro ⟨h1, h2⟩
      rcases hc with hc | hc
      · rw [h1] at hc; cases hc
      · rw [h2] at hc; cases hc
  · rw [coerceToken, if_neg hc] at h
    obtain ⟨m, _, rfl⟩ := Option.map_eq_some'.mp h
    simp only [Bool.or_eq_true, not_or, Bool.not_eq_true] at hc
    exact ⟨fun _ => ⟨hc.1, hc.2⟩, fun _ => ⟨m, rfl⟩⟩

/-- C4 (helper): a token with a decimal point or exponent marker coerces to
the float whose exact value `pyFloatOfStr` assigns to it. -/
theorem coerceToken_float (tok : List Char) (v : PyVal) (h : coerceToken tok = some v)
    (hf : tok.contains '.' = true ∨ (tok.map Char.toLower).contains 'e' = true) :
    ∃ q, v = PyVal.float q ∧ pyFloatOfStr tok = some q := by
  have hc : (tok.contains '.' || (tok.map Char.toLower).contains 'e') = true := by
    rcases hf with hf | hf
    · rw [hf, Bool.true_or]
    · rw [hf, Bool.or_true]
  rw [coerceToken, if_pos hc] at h
  obtain ⟨q, hq, rfl⟩ := Option.map_eq_some'.mp h
  exact ⟨q, rfl, hq⟩

theorem forall2_row_length {n : Nat} :
    ∀ {L : List (List Char)} {rows : List (List PyVal)},
      (∀ l ∈ L, n ≤ (tokensOf l).length) →
      List.Forall₂ (fun l row => rowOf n l = some row) L rows →
      List.Forall₂ (fun l row => rowOf n l = some row ∧ row.length = n) L rows := by
  intro L rows hmem h
  induction h with
  | nil => exact .nil
  | @cons a b as bs hab _ ih =>
    refine .cons ⟨hab, ?_⟩ (ih (fun l hl => hmem l (List.mem_cons_of_mem a hl)))
    have hlen := mapOpt_length hab
    have : ((tokensOf a).take n).length = n := by
      rw [List.length_take]
      exact Nat.min_eq_left (hmem a (List.mem_cons_self a as))
    rw [hlen, this]

/-- C4: when `parse_input` succeeds, each returned row corresponds to the
first `n_cols` tokens of a kept input line under the elementwise coercion,
with exactly `n_cols` fields; a token coerces to an integer exactly when it
has no decimal point and no exponent marker, and otherwise to the float
with the token's numeric value. -/
theorem parse_coercion (text : List Char) (n : Nat) (rows : List (List PyVal))
    (h : parse_input text n = some rows) :
    List.Forall₂ (fun line row => rowOf n line = some row ∧ row.length = n)
        (keptLines text n) rows
    ∧ (∀ tok v, coerceToken tok = some v →
        ((∃ m, v = PyVal.int m) ↔
          (tok.contains '.' = false ∧ (tok.map Char.toLower).contains 'e' = false)))
    ∧ (∀ tok v, coerceToken tok = some v →
        (tok.contains '.' = true ∨ (tok.map Char.toLower).contains 'e' = true) →
        ∃ q, v = PyVal.float q ∧ pyFloatOfStr tok = some q) := by
  rw [parse_input_eq] at h
  refine ⟨forall2_row_length (fun l hl => keptLines_tokens hl) (mapOpt_eq_some.mp h),
    coerceToken_int_iff, coerceToken_float⟩

/-- C4 witness: `parse_input("1, 2.5\n3 4e1, 9", 2)` returns
`[[1, 2.5], [3, 40.0]]`, and the roundtrip property holds there. -/
theorem parse_coercion_witness :
    List.Forall₂
        (fun line row => rowOf 2 line = some row ∧ row.length = 2)
        (keptLines ['1', ',', ' ', '2', '.', '5', '\x0a', '3', ' ', '4', 'e', '1', ',', ' ', '9'] 2)
        [[PyVal.int 1, PyVal.float (5 / 2)], [PyVal.int 3, PyVal.float 40]]
    ∧ (∀ tok v, coerceToken tok = some v →
        ((∃ m, v = PyVal.int m) ↔
          (tok.contains '.' = false ∧ (tok.map Char.toLower).contains 'e' = false)))
    ∧ (∀ tok v, coerceToken tok = some v →
        (tok.contains '.' = true ∨ (tok.map Char.toLower).contains 'e' = true) →
        ∃ q, v = PyVal.float q ∧ pyFloatOfStr tok = some q) :=
  parse_coercion ['1', ',', ' ', '2', '.', '5', '\x0a', '3', ' ', '4', 'e', '1', ',', ' ', '9'] 2
    [[PyVal.int 1, PyVal.float (5 / 2)], [PyVal.int 3, PyVal.float 40]]
    (by with_unfolding_all decide)

/-- C5 counterexample: the line `"x"` has one token, so with `n_cols = 1`
the claim says it is returned (truncated); instead the unguarded `int("x")`
conversion fails and `parse_input` raises (returns nothing). -/
theorem parse_row_filtering_cx :
    parse_input ['x'] 1 = none ∧ 1 ≤ (tokensOf ['x']).length := by
  decide

/-- C5 (amended): provided every kept line's first `n_cols` tokens convert,
`parse_input` returns exactly the rows of the lines with at least `n_cols`
tokens, each truncated to its first `n_cols` fields; lines with fewer
tokens are silently dropped (they contribute nothing and cause no error). -/
theorem parse_row_filtering (text : List Char) (n : Nat)
    (h : ∀ l ∈ keptLines text n, (rowOf n l).isSome) :
    ∃ rows, parse_input text n = some rows ∧
      List.Forall₂ (fun l row => rowOf n l = some row) (keptLines text n) rows := by
  obtain ⟨rows, hrows⟩ := mapOpt_isSome h
  exact ⟨rows, by rw [parse_input_eq]; exact hrows, mapOpt_eq_some.mp hrows⟩

/-- C5 witness: on `"1 2\n3"` with `n_cols = 2` the second line is dropped
and the first is returned. -/
theorem parse_row_filtering_witness :
    ∃ rows, parse_input ['1', ' ', '2', '\x0a', '3'] 2 = some rows ∧
      List.Forall₂ (fun l row => rowOf 2 l = some row)
        (keptLines ['1', ' ', '2', '\x0a', '3'] 2) rows :=
  parse_row_filtering ['1', ' ', '2', '\x0a', '3'] 2 (by decide)

/-! ## Whitespace and separator lemmas for the comma/space claim -/

theorem modifyHead_append_of_ne_nil (f : List Char → List Char) {A : List (List Char)}
    (B : List (List Char)) (h : A ≠ []) :
    (A ++ B).modifyHead f = A.modifyHead f ++ B := by
  cases A with
  | nil => exact absurd rfl h
  | cons a as => rfl

theorem splitOnP_allP {p : Char → Bool} :
    ∀ {w : List Char}, (∀ c ∈ w, p c = true) →
      w.splitOnP p = List.replicate (w.length + 1) [] := by
  intro w
  induction w with
  | nil => intro _; simp [List.splitOnP_nil]
  | cons c cs ih =>
    intro h
    rw [List.splitOnP_cons, if_pos (h c (List.mem_cons_self c cs)),
      ih (fun x hx => h x (List.mem_cons_of_mem c hx))]
    simp [List.replicate_succ]

theorem splitOnP_ws_prefix {p : Char → Bool} :
    ∀ {w : List Char} (s : List Char), (∀ c ∈ w, p c = true) →
      (w ++ s).splitOnP p = List.replicate w.length [] ++ s.splitOnP p := by
  intro w
  induction w with
  | nil => intro s _; simp
  | cons c cs ih =>
    intro s h
    rw [List.cons_append, List.splitOnP_cons, if_pos (h c (List.mem_cons_self c cs)),
      ih s (fun x hx => h x (List.mem_cons_of_mem c hx))]
    simp [List.replicate_succ]

theorem splitOnP_ws_suffix {p : Char → Bool} :
    ∀ (s : List Char) {w : List Char}, (∀ c ∈ w, p c = true) →
      (s ++ w).splitOnP p = s.splitOnP p ++ List.replicate w.length [] := by
  intro s
  induction s with
  | nil =>
    intro w h
    rw [List.nil_append, splitOnP_allP h, List.splitOnP_nil, List.replicate_succ]
    rfl
  | cons c cs ih =>
    intro w h
    by_cases hc : p c = true
    · rw [List.cons_append, List.splitOnP_cons, if_pos hc, ih h, List.splitOnP_cons, if_pos hc]
      rfl
    · rw [List.cons_append, List.splitOnP_cons, if_neg hc, ih h, List.splitOnP_cons, if_neg hc,
        modifyHead_append_of_ne_nil _ _ (List.splitOnP_ne_nil _ cs)]

theorem filter_replicate_nil (n : Nat) :
    (List.replicate n ([] : List Char)).filter (fun t => !t.isEmpty) = [] := by
  induction n with
  | zero => rfl
  | succ k ih => simp [List.replicate_succ, List.filter_cons, ih]

theorem wsTokens_ws_prefix {w : List Char} (s : List Char) (h : ∀ c ∈ w, isPyWs c = true) :
    wsTokens (w ++ s) = wsTokens s := by
  rw [wsTokens, splitOnP_ws_prefix s h, List.filter_append, filter_replicate_nil]
  rfl

theorem wsTokens_ws_suffix (s : List Char) {w : List Char} (h : ∀ c ∈ w, isPyWs c = true) :
    wsTokens (s ++ w) = wsTokens s := by
  rw [wsTokens, splitOnP_ws_suffix s h, List.filter_append, filter_replicate_nil]
  simp [wsTokens]

theorem wsTokens_allWs {w : List Char} (h : ∀ c ∈ w, isPyWs c = true) :
    wsTokens w = [] := by
  have := wsTokens_ws_prefix [] h
  simpa using this

theorem isPyWs_ne_comma {c : Char} (h : isPyWs c = true) : c ≠ ',' := by
  intro hc
  subst hc
  simp [isPyWs] at h

theorem replaceComma_ws_fixed {c : Char} (h : isPyWs c = true) :
    (if c = ',' then ' ' else c) = c := by
  rw [if_neg (isPyWs_ne_comma h)]

theorem replaceComma_allWs {w : List Char} (h : ∀ c ∈ w, isPyWs c = true) :
    replaceComma w = w := by
  rw [replaceComma]
  conv_rhs => rw [← List.map_id w]
  exact List.map_congr_left (fun c hc => replaceComma_ws_fixed (h c hc))

theorem replaceComma_append (a b : List Char) :
    replaceComma (a ++ b) = replaceComma a ++ replaceComma b :=
  List.map_append _ a b

theorem replaceComma_idem (s : List Char) :
    replaceComma (replaceComma s) = replaceComma s := by
  rw [replaceComma, replaceComma, List.map_map]
  refine List.map_congr_left (fun c _ => ?_)
  by_cases hc : c = ','
  · simp [hc]
  · simp [hc]

/-- Decomposition of a string into all-whitespace margins around its
stripped core. -/
theorem pyStrip_decomp (l : List Char) :
    ∃ w₁ w₂, (∀ c ∈ w₁, isPyWs c = true) ∧ (∀ c ∈ w₂, isPyWs c = true) ∧
      l = w₁ ++ pyStrip l ++ w₂ := by
  refine ⟨l.takeWhile isPyWs, ((l.dropWhile isPyWs).reverse.takeWhile isPyWs).reverse,
    fun c hc => List.mem_takeWhile_imp hc, ?_, ?_⟩
  · intro c hc
    exact List.mem_takeWhile_imp (List.mem_reverse.mp hc)
  · conv_lhs => rw [← List.takeWhile_append_dropWhile (p := isPyWs) (l := l)]
    rw [List.append_assoc]
    congr 1
    rw [pyStrip, dropTrailingWs]
    conv_lhs => rw [← List.reverse_reverse (l.dropWhile isPyWs),
      ← List.takeWhile_append_dropWhile (p := isPyWs) (l := (l.dropWhile isPyWs).reverse)]
    rw [List.reverse_append]

/-- The per-line pipeline `strip → replace commas → split` has the same
tokens as `replace commas → split`: stripping only removes boundary
whitespace, which the whitespace split ignores anyway. -/
theorem tokensOf_eq (l : List Char) : tokensOf l = wsTokens (replaceComma l) := by
  obtain ⟨w₁, w₂, h₁, h₂, hl⟩ := pyStrip_decomp l
  conv_rhs => rw [hl]
  rw [replaceComma_append, replaceComma_append, replaceComma_allWs h₁, replaceComma_allWs h₂,
    List.append_assoc, wsTokens_ws_prefix _ h₁, wsTokens_ws_suffix _ h₂]
  rfl

theorem tokensOf_replaceComma (l : List Char) : tokensOf (replaceComma l) = tokensOf l := by
  rw [tokensOf_eq, tokensOf_eq, replaceComma_idem]

theorem tokensOf_cons_ws {c : Char} (l : List Char) (h : isPyWs c = true) :
    tokensOf (c :: l) = tokensOf l := by
  rw [tokensOf_eq, tokensOf_eq, replaceComma, List.map_cons, replaceComma_ws_fixed h]
  exact wsTokens_ws_prefix (replaceComma l)
    (fun x hx => by rw [List.mem_singleton.mp hx]; exact h)

theorem tokensOf_append_ws (l : List Char) {w : List Char} (h : ∀ c ∈ w, isPyWs c = true) :
    tokensOf (l ++ w) = tokensOf l := by
  rw [tokensOf_eq, tokensOf_eq, replaceComma_append, replaceComma_allWs h]
  exact wsTokens_ws_suffix _ h

theorem tokensOf_allWs {w : List Char} (h : ∀ c ∈ w, isPyWs c = true) :
    tokensOf w = [] := by
  rw [tokensOf_eq, replaceComma_allWs h]
  exact wsTokens_allWs h

/-! ## Line-structure lemmas -/

theorem splitChar_ne_nil (sep : Char) (s : List Char) : splitChar sep s ≠ [] :=
  List.splitOnP_ne_nil _ s

/-- A character map that fixes whether a character is the separator
commutes with splitting on that separator. -/
theorem splitChar_map (sep : Char) (f : Char → Char)
    (hf : ∀ c, (f c = sep) ↔ (c = sep)) :
    ∀ s : List Char, splitChar sep (s.map f) = (splitChar sep s).map (List.map f) := by
  intro s
  induction s with
  | nil => rfl
  | cons c cs ih =>
    by_cases hc : c = sep
    · rw [List.map_cons, splitChar, List.splitOnP_cons, if_pos (by simpa using (hf c).mpr hc)]
      rw [splitChar, List.splitOnP_cons, if_pos (by simpa using hc)]
      rw [← splitChar, ← splitChar, ih, List.map_cons]
      rfl
    · rw [List.map_cons, splitChar, List.splitOnP_cons, if_neg (by simpa using fun h => hc ((hf c).mp h))]
      rw [splitChar, List.splitOnP_cons, if_neg (by simpa using hc), ← splitChar, ← splitChar, ih]
      obtain ⟨a, as, ha⟩ := List.exists_cons_of_ne_nil (splitChar_ne_nil sep cs)
      rw [ha]
      rfl

/-- Join two split results at the seam: the last piece of the first run
continues into the first piece of the second. -/
def joinLast : List (List Char) → List (List Char) → List (List Char)
  | [], B => B
  | [a], B =>
    match B with
    | [] => [a]
    | b :: bs => (a ++ b) :: bs
  | a :: a' :: r, B => a :: joinLast (a' :: r) B

theorem joinLast_modifyHead (c : Char) (A B : List (List Char)) (hA : A ≠ []) :
    (joinLast A B).modifyHead (fun l => c :: l) =
      joinLast (A.modifyHead (fun l => c :: l)) B := by
  match A with
  | [] => exact absurd rfl hA
  | [a] =>
    match B with
    | [] => rfl
    | b :: bs => rfl
  | a :: a' :: r => rfl

theorem splitChar_append (sep : Char) :
    ∀ s t : List Char, splitChar sep (s ++ t) = joinLast (splitChar sep s) (splitChar sep t) := by
  intro s
  induction s with
  | nil =>
    intro t
    obtain ⟨a, as, ha⟩ := List.exists_cons_of_ne_nil (splitChar_ne_nil sep t)
    rw [List.nil_append, ha]
    rfl
  | cons c cs ih =>
    intro t
    simp only [splitChar] at ih ⊢
    by_cases hc : (decide (c = sep)) = true
    · rw [List.cons_append, List.splitOnP_cons, List.splitOnP_cons, if_pos hc, if_pos hc, ih]
      obtain ⟨a, as, ha⟩ := List.exists_cons_of_ne_nil
        (List.splitOnP_ne_nil (fun x => decide (x = sep)) cs)
      rw [ha]
      rfl
    · rw [List.cons_append, List.splitOnP_cons, List.splitOnP_cons, if_neg hc, if_neg hc, ih]
      exact joinLast_modifyHead c _ _
        (List.splitOnP_ne_nil (fun x => decide (x = sep)) cs)

theorem joinLast_eq_append {A : List (List Char)} (hA : A ≠ []) (b : List Char)
    (bs : List (List Char)) :
    joinLast A (b :: bs) = A.dropLast ++ (A.getLast hA ++ b) :: bs := by
  induction A with
  | nil => exact absurd rfl hA
  | cons a as ih =>
    cases as with
    | nil => rfl
    | cons a' r =>
      rw [joinLast, ih (List.cons_ne_nil a' r)]
      rw [List.dropLast_cons_of_ne_nil (List.cons_ne_nil a' r), List.cons_append]
      congr 2

/-- Every line of an all-whitespace text is all-whitespace. -/
theorem splitChar_allWs_lines {w : List Char} (h : ∀ c ∈ w, isPyWs c = true) :
    ∀ x ∈ splitChar '\x0a' w, ∀ c ∈ x, isPyWs c = true := by
  induction w with
  | nil =>
    intro x hx
    rw [List.mem_singleton.mp hx]
    intro c hc
    cases hc
  | cons a as ih =>
    by_cases ha : a = '\x0a'
    · rw [splitChar, List.splitOnP_cons, if_pos (by simpa using ha), ← splitChar]
      intro x hx
      cases hx with
      | head => intro c hc; cases hc
      | tail _ hx' =>
        exact ih (fun c hc => h c (List.mem_cons_of_mem a hc)) x hx'
    · rw [splitChar, List.splitOnP_cons, if_neg (by simpa using ha), ← splitChar]
      obtain ⟨x0, xs, hx0⟩ := List.exists_cons_of_ne_nil (splitChar_ne_nil '\x0a' as)
      rw [hx0]
      intro x hx
      cases hx with
      | head =>
        intro c hc
        cases hc with
        | head => exact h a (List.mem_cons_self a as)
        | tail _ hc' =>
          exact ih (fun c hc => h c (List.mem_cons_of_mem a hc)) x0
            (hx0 ▸ List.mem_cons_self x0 xs) c hc'
      | tail _ hx' =>
        exact ih (fun c hc => h c (List.mem_cons_of_mem a hc)) x
          (hx0 ▸ List.mem_cons_of_mem x0 hx')

/-! ## Canonical token rows and the comma/space equivalence -/

/-- The token rows of a text: per-line token lists with tokenless lines
removed (the canonical data `parse_input` depends on when at least one
column is required). -/
def tokRows (u : List Char) : List (List (List Char)) :=
  ((splitChar '\x0a' u).map tokensOf).filter (fun t => !t.isEmpty)

/-- The per-line loop of `parse_input`, expressed on token rows. -/
def procTok (n : Nat) : List (List (List Char)) → Option (List (List PyVal))
  | [] => some []
  | parts :: rest =>
    if n ≤ parts.length then
      match mapOpt coerceToken (parts.take n) with
      | none => none
      | some row => (procTok n rest).map (fun d => row :: d)
    else procTok n rest

theorem parseLines_eq_procTok (n : Nat) :
    ∀ L : List (List Char), parseLines n L = procTok n (L.map tokensOf) := by
  intro L
  induction L with
  | nil => rfl
  | cons line rest ih =>
    show parseLines n (line :: rest) = procTok n (tokensOf line :: rest.map tokensOf)
    rw [parseLines, procTok, ih]

theorem procTok_filter_empty (n : Nat) (hn : 1 ≤ n) :
    ∀ T : List (List (List Char)),
      procTok n (T.filter (fun t => !t.isEmpty)) = procTok n T := by
  intro T
  induction T with
  | nil => rfl
  | cons t rest ih =>
    by_cases ht : t.isEmpty = true
    · have hlen : ¬ n ≤ t.length := by
        rw [List.isEmpty_iff] at ht
        subst ht
        simp only [List.length_nil]
        omega
      rw [List.filter_cons, if_neg (by simp [ht]), ih, procTok, if_neg hlen]
    · rw [List.filter_cons, if_pos (by simp [ht])]
      rw [procTok, procTok, ih]

/-- For a positive column requirement, `parse_input` depends on the text
only through its canonical token rows. -/
theorem parse_input_tokRows (text : List Char) (n : Nat) (hn : 1 ≤ n) :
    parse_input text n = procTok n (tokRows (pyStrip text)) := by
  rw [parse_input, parseLines_eq_procTok, tokRows, procTok_filter_empty n hn]

theorem tokRows_def (u : List Char) :
    tokRows u = ((splitChar '\x0a' u).map tokensOf).filter (fun t => !t.isEmpty) :=
  rfl

theorem tokRows_ws_prefix : ∀ {w : List Char} (s : List Char),
    (∀ c ∈ w, isPyWs c = true) → tokRows (w ++ s) = tokRows s := by
  intro w
  induction w with
  | nil => intro s _; rfl
  | cons a as ih =>
    intro s h
    have has : ∀ c ∈ as, isPyWs c = true := fun c hc => h c (List.mem_cons_of_mem a hc)
    have hA := splitChar_ne_nil '\x0a' (as ++ s)
    by_cases ha : a = '\x0a'
    · rw [List.cons_append, tokRows_def, splitChar, List.splitOnP_cons,
        if_pos (by simpa using ha), ← splitChar]
      rw [List.map_cons, List.filter_cons]
      have := ih s has
      rw [tokRows_def] at this
      simpa using this
    · rw [List.cons_append, tokRows_def, splitChar, List.splitOnP_cons,
        if_neg (by simpa using ha), ← splitChar]
      obtain ⟨x0, xs, hx0⟩ := List.exists_cons_of_ne_nil hA
      rw [hx0, List.modifyHead_cons, List.map_cons,
        tokensOf_cons_ws x0 (h a (List.mem_cons_self a as))]
      have := ih s has
      rw [tokRows_def, hx0, List.map_cons] at this
      exact this

theorem tokRows_ws_suffix (s : List Char) {w : List Char}
    (h : ∀ c ∈ w, isPyWs c = true) : tokRows (s ++ w) = tokRows s := by
  obtain ⟨b, bs, hb⟩ := List.exists_cons_of_ne_nil (splitChar_ne_nil '\x0a' w)
  have hbws : ∀ c ∈ b, isPyWs c = true :=
    splitChar_allWs_lines h b (hb ▸ List.mem_cons_self b bs)
  have hbsws : ∀ x ∈ bs, ∀ c ∈ x, isPyWs c = true := fun x hx =>
    splitChar_allWs_lines h x (hb ▸ List.mem_cons_of_mem b hx)
  have hA := splitChar_ne_nil '\x0a' s
  have hbs_nil : (bs.map tokensOf).filter (fun t => !t.isEmpty) = [] := by
    rw [List.filter_eq_nil_iff]
    intro t ht
    obtain ⟨x, hx, rfl⟩ := List.mem_map.mp ht
    simp [tokensOf_allWs (hbsws x hx)]
  rw [tokRows_def, splitChar_append '\x0a' s w, hb, joinLast_eq_append hA b bs,
    List.map_append, List.map_cons, List.filter_append, tokensOf_append_ws _ hbws,
    List.filter_cons, hbs_nil]
  conv_rhs => rw [tokRows_def, ← List.dropLast_append_getLast hA, List.map_append,
    List.map_singleton, List.filter_append, List.filter_cons, List.filter_nil]

theorem tokRows_pyStrip (u : List Char) : tokRows (pyStrip u) = tokRows u := by
  obtain ⟨w₁, w₂, h₁, h₂, hu⟩ := pyStrip_decomp u
  conv_rhs => rw [hu]
  rw [List.append_assoc, tokRows_ws_prefix _ h₁, tokRows_ws_suffix _ h₂]

theorem tokRows_replaceComma (u : List Char) : tokRows (replaceComma u) = tokRows u := by
  rw [tokRows, tokRows, replaceComma,
    splitChar_map '\x0a' _ (fun c => by
      constructor
      · intro h
        by_cases hc : c = ','
        · rw [if_pos hc] at h
          cases h
        · rwa [if_neg hc] at h
      · intro h
        subst h
        rfl) u,
    List.map_map]
  congr 1
  refine List.map_congr_left (fun l _ => ?_)
  exact tokensOf_replaceComma l

/-- C6 counterexample: with `n_cols = 0`, a leading line consisting of a
single comma is kept (as an empty row), but after the comma is replaced by
a space that line is consumed by the initial `strip` and its row vanishes:
`parse_input(",\n1 2", 0)` has two rows, `parse_input(" \n1 2", 0)` one. -/
theorem parse_comma_space_cx :
    parse_input (replaceComma [',', '\x0a', '1', ' ', '2']) 0 ≠
      parse_input [',', '\x0a', '1', ' ', '2'] 0 := by
  decide

/-- C6 (amended): for a positive required column count, `parse_input` is
unchanged when every comma of the text is replaced by a space.  (For
`n_cols = 0` the claim fails, see the counterexample: an all-comma line at
a boundary of the text survives as an empty row only until the commas are
replaced and the whole line is stripped away.) -/
theorem parse_comma_space (text : List Char) (n : Nat) (hn : 1 ≤ n) :
    parse_input (replaceComma text) n = parse_input text n := by
  rw [parse_input_tokRows text n hn, parse_input_tokRows (replaceComma text) n hn,
    tokRows_pyStrip, tokRows_pyStrip, tokRows_replaceComma]

/-- C6 witness: on `"1,2\n3 4"` with `n_cols = 2`, comma-replaced and
original parses agree. -/
theorem parse_comma_space_witness :
    parse_input (replaceComma ['1', ',', '2', '\x0a', '3', ' ', '4']) 2 =
      parse_input ['1', ',', '2', '\x0a', '3', ' ', '4'] 2 :=
  parse_comma_space ['1', ',', '2', '\x0a', '3', ' ', '4'] 2 (by decide)

/-! ## Discretization: freshness and append-only behaviour -/

theorem le_foldl_max (as : List ℚ) : ∀ a : ℚ, a ≤ as.foldl max a ∧ ∀ x ∈ as, x ≤ as.foldl max a := by
  induction as with
  | nil => exact fun a => ⟨le_refl a, fun x hx => absurd hx (List.not_mem_nil x)⟩
  | cons b bs ih =>
    intro a
    refine ⟨le_trans (le_max_left a b) (ih (max a b)).1, fun x hx => ?_⟩
    cases hx with
    | head => exact le_trans (le_max_right a b) (ih (max a b)).1
    | tail _ hx' => exact (ih (max a b)).2 x hx'

theorem mem_le_listMax {l : List ℚ} {x : ℚ} (h : x ∈ l) : x ≤ (listMax l).getD 0 := by
  cases l with
  | nil => exact absurd h (List.not_mem_nil x)
  | cons a as =>
    rw [listMax, Option.getD_some]
    cases List.mem_cons.mp h with
    | inl hxa => rw [hxa]; exact (le_foldl_max as a).1
    | inr h' => exact (le_foldl_max as a).2 x h'

/-- Freshness of the inner subdivision loop: it only appends nodes, the
appended tags are strictly increasing in insertion order, and every
appended tag exceeds every tag already in the list at its insertion. -/
theorem discLoop_fresh (xi yi dx dy jN : ℚ) (N : Int) :
    ∀ (js : List Nat) (st : DiscSt),
      ∃ Δ, (js.foldl (discStep xi yi dx dy jN N) st).nodes = st.nodes ++ Δ ∧
        List.Pairwise (fun p q => p < q) (Δ.map Node2.tag) ∧
        ∀ o ∈ st.nodes, ∀ d ∈ Δ, o.tag < d.tag := by
  intro js
  induction js with
  | nil => exact fun st => ⟨[], by simp⟩
  | cons j js ih =>
    intro st
    rw [List.foldl_cons]
    obtain ⟨Δ₁, hnodes, hpw, hgt⟩ := ih (discStep xi yi dx dy jN N st j)
    by_cases hi : ((j : Int) + 1) < N
    · have hstep : (discStep xi yi dx dy jN N st j).nodes =
          st.nodes ++ [⟨(listMax (st.nodes.map Node2.tag)).getD 0 + 1,
            xi + (((j : Int) + 1 : Int) : ℚ) * dx, yi + (((j : Int) + 1 : Int) : ℚ) * dy⟩] := by
        simp only [discStep, if_pos hi]
      set M := (listMax (st.nodes.map Node2.tag)).getD 0 with hM
      set nd : Node2 := ⟨M + 1, xi + (((j : Int) + 1 : Int) : ℚ) * dx,
        yi + (((j : Int) + 1 : Int) : ℚ) * dy⟩ with hnd
      have hoM : ∀ o ∈ st.nodes, o.tag < nd.tag := by
        intro o ho
        have : o.tag ≤ M := mem_le_listMax (List.mem_map_of_mem Node2.tag ho)
        calc o.tag ≤ M := this
          _ < M + 1 := by linarith
      refine ⟨nd :: Δ₁, ?_, ?_, ?_⟩
      · rw [hnodes, hstep, List.append_assoc]
        rfl
      · rw [List.map_cons]
        refine List.Pairwise.cons ?_ hpw
        intro q hq
        obtain ⟨d, hd, rfl⟩ := List.mem_map.mp hq
        exact hgt nd (by rw [hstep]; exact List.mem_append_right _ (List.mem_singleton_self nd)) d hd
      · intro o ho d hd
        cases hd with
        | head => exact hoM o ho
        | tail _ hd' =>
          exact hgt o (by rw [hstep]; exact List.mem_append_left _ ho) d hd'
    · have hstep : (discStep xi yi dx dy jN N st j).nodes = st.nodes := by
        simp only [discStep, if_neg hi]
      refine ⟨Δ₁, by rw [hnodes, hstep], hpw, ?_⟩
      intro o ho d hd
      exact hgt o (by rw [hstep]; exact ho) d hd

/-- Freshness for the whole per-element body. -/
theorem discretizeElement_fresh (discs : List (ℚ × ℚ)) (nodes : List Node2)
    (trace : List OpsCall) (ec : Nat) (e : ℚ × ℚ × ℚ) (st : DiscSt)
    (h : discretizeElement discs nodes trace ec e = some st) :
    ∃ Δ, st.nodes = nodes ++ Δ ∧
      List.Pairwise (fun p q => p < q) (Δ.map Node2.tag) ∧
      ∀ o ∈ nodes, ∀ d ∈ Δ, o.tag < d.tag := by
  rw [discretizeElement] at h
  split at h
  case h_2 => cases h
  case h_1 ni nj hfi hfj =>
    split at h
    · cases h
    · injection h with h'
      obtain ⟨Δ, hnodes, hpw, hgt⟩ :=
        discLoop_fresh ni.x ni.y ((nj.x - ni.x) / ((subdivisionFor discs e.1 : Int) : ℚ))
          ((nj.y - ni.y) / ((subdivisionFor discs e.1 : Int) : ℚ)) e.2.2
          (subdivisionFor discs e.1) (List.range (subdivisionFor discs e.1).toNat)
          ⟨nodes, [], trace, e.2.1, ec⟩
      exact ⟨Δ, by rw [← h']; exact hnodes, hpw, hgt⟩

/-- Freshness for the discretization stage over all elements (also covering
runs that abort part-way). -/
theorem runDisc_fresh (discs : List (ℚ × ℚ)) :
    ∀ (es : List (ℚ × ℚ × ℚ)) (nodes : List Node2) (trace : List OpsCall)
      (elems : List ElemRec) (ec : Nat),
      ∃ Δ, (runDiscretization discs es nodes trace elems ec).nodes = nodes ++ Δ ∧
        List.Pairwise (fun p q => p < q) (Δ.map Node2.tag) ∧
        ∀ o ∈ nodes, ∀ d ∈ Δ, o.tag < d.tag := by
  intro es
  induction es with
  | nil => exact fun nodes trace elems ec => ⟨[], by simp [runDiscretization]⟩
  | cons e es ih =>
    intro nodes trace elems ec
    rw [runDiscretization]
    cases hde : discretizeElement discs nodes trace ec e with
    | none => exact ⟨[], by simp, List.Pairwise.nil, by simp⟩
    | some st =>
      obtain ⟨Δ₁, h₁, hpw₁, hgt₁⟩ := discretizeElement_fresh discs nodes trace ec e st hde
      obtain ⟨Δ₂, h₂, hpw₂, hgt₂⟩ := ih st.nodes st.trace (elems ++ st.elems) st.ec
      refine ⟨Δ₁ ++ Δ₂, ?_, ?_, ?_⟩
      · rw [h₂, h₁, List.append_assoc]
      · rw [List.map_append, List.pairwise_append]
        refine ⟨hpw₁, hpw₂, ?_⟩
        intro p hp q hq
        obtain ⟨d₁, hd₁, rfl⟩ := List.mem_map.mp hp
        obtain ⟨d₂, hd₂, rfl⟩ := List.mem_map.mp hq
        exact hgt₂ d₁ (by rw [h₁]; exact List.mem_append_right _ hd₁) d₂ hd₂
      · intro o ho d hd
        rcases List.mem_append.mp hd with hd' | hd'
        · exact hgt₁ o ho d hd'
        · exact hgt₂ o (by rw [h₁]; exact List.mem_append_left _ ho) d hd'

/-- C3: across a whole discretization run, every inserted node tag is
strictly greater than every tag present before that insertion (the
user-declared tags and all earlier inserted tags), so the new tags are
strictly increasing in insertion order, mutually distinct, and strictly
greater than all pre-existing tags. -/
theorem new_tags_fresh (discs : List (ℚ × ℚ)) (es : List (ℚ × ℚ × ℚ)) (nodes : List Node2)
    (trace : List OpsCall) (elems : List ElemRec) (ec : Nat) :
    ∃ newNodes, (runDiscretization discs es nodes trace elems ec).nodes = nodes ++ newNodes ∧
      List.Pairwise (fun p q => p < q) (newNodes.map Node2.tag) ∧
      ∀ o ∈ nodes, ∀ d ∈ newNodes, o.tag < d.tag :=
  runDisc_fresh discs es nodes trace elems ec

/-- C10: `run_analysis` changes the caller's node list only by appending:
the original entries remain, unmodified and in order, as a prefix of the
final list, whether or not the run completes. -/
theorem nodes_append_only (m : Model2D) :
    ∃ newNodes, (run_analysis m).nodes = m.nodes ++ newNodes := by
  obtain ⟨Δ, hΔ, -, -⟩ := runDisc_fresh m.discretizations m.elements m.nodes [] [] 1
  refine ⟨Δ, ?_⟩
  rw [run_analysis]
  by_cases hok : (runDiscretization m.discretizations m.elements m.nodes [] [] 1).ok = true
  · simp only [hok, if_pos]
    exact hΔ
  · simp only [hok, if_neg, Bool.false_eq_true, not_false_iff]
    exact hΔ

/-! ## Discretization: exact interpolation counts and coordinates -/

theorem discLoop_range_spec (xi yi dx dy jN : ℚ) (N : Int) (hN : 1 < N) (st0 : DiscSt) :
    ∀ m : Nat, m ≤ N.toNat →
      ∃ Δ, ((List.range m).foldl (discStep xi yi dx dy jN N) st0).nodes = st0.nodes ++ Δ ∧
        Δ.length = min m (N.toNat - 1) ∧
        (∀ k (hk : k < Δ.length),
          (Δ.get ⟨k, hk⟩).x = xi + ((k + 1 : ℕ) : ℚ) * dx ∧
          (Δ.get ⟨k, hk⟩).y = yi + ((k + 1 : ℕ) : ℚ) * dy) ∧
        ((List.range m).foldl (discStep xi yi dx dy jN N) st0).elems.length =
          st0.elems.length + m := by
  intro m
  induction m with
  | zero =>
    intro _
    exact ⟨[], by simp, by simp, fun k hk => absurd hk (by simp), by simp⟩
  | succ m ih =>
    intro hm
    obtain ⟨Δ, hΔnodes, hΔlen, hΔcoords, helems⟩ := ih (Nat.le_of_succ_le hm)
    clear ih
    rw [List.range_succ, List.foldl_append, List.foldl_cons, List.foldl_nil]
    set stm := (List.range m).foldl (discStep xi yi dx dy jN N) st0 with hstm
    by_cases hi : ((m : Int) + 1) < N
    · have hmN : m + 1 < N.toNat := by omega
      set nd : Node2 := ⟨(listMax (stm.nodes.map Node2.tag)).getD 0 + 1,
        xi + (((m : Int) + 1 : Int) : ℚ) * dx, yi + (((m : Int) + 1 : Int) : ℚ) * dy⟩ with hnd
      have hstep : (discStep xi yi dx dy jN N stm m).nodes = stm.nodes ++ [nd] := by
        simp only [discStep, if_pos hi]
      have hestep : (discStep xi yi dx dy jN N stm m).elems.length = stm.elems.length + 1 := by
        simp only [discStep, if_pos hi, List.length_append, List.length_cons, List.length_nil]
      refine ⟨Δ ++ [nd], ?_, ?_, ?_, ?_⟩
      · rw [hstep, hΔnodes, List.append_assoc]
      · rw [List.length_append, List.length_singleton, hΔlen]
        omega
      · intro k hk
        have hklt : k < Δ.length + 1 := by
          rw [List.length_append, List.length_singleton] at hk
          exact hk
        by_cases hkΔ : k < Δ.length
        · rw [List.get_append k hkΔ]
          exact hΔcoords k hkΔ
        · have hkeq : k = Δ.length := by omega
          subst hkeq
          have hg : (Δ ++ [nd]).get ⟨Δ.length, hk⟩ = nd := by
            rw [List.get_append_right] <;> simp
          rw [hg]
          have hΔm : Δ.length = m := by
            rw [hΔlen]
            omega
          rw [hnd, hΔm]
          constructor
          · show xi + (((m : Int) + 1 : Int) : ℚ) * dx = xi + ((m + 1 : ℕ) : ℚ) * dx
            push_cast
            ring
          · show yi + (((m : Int) + 1 : Int) : ℚ) * dy = yi + ((m + 1 : ℕ) : ℚ) * dy
            push_cast
            ring
      · rw [hestep, helems]
        omega
    · have hstep : (discStep xi yi dx dy jN N stm m).nodes = stm.nodes := by
        simp only [discStep, if_neg hi]
      have hestep : (discStep xi yi dx dy jN N stm m).elems.length = stm.elems.length + 1 := by
        simp only [discStep, if_neg hi, List.length_append, List.length_cons, List.length_nil]
      refine ⟨Δ, ?_, ?_, hΔcoords, ?_⟩
      · rw [hstep, hΔnodes]
      · rw [hΔlen]
        omega
      · rw [hestep, helems]
        omega

/-- C1: for an element whose endpoints are found in the node list and a
subdivision count `N > 1`, the discretization step produces exactly `N`
sub-elements and appends exactly `N - 1` new nodes, the `i`-th new node
lying at the exact uniform interpolation
`(xi + i*(xj - xi)/N, yi + i*(yj - yi)/N)` for `i = 1 .. N-1`. -/
theorem discretize_interpolation (discs : List (ℚ × ℚ)) (nodes : List Node2)
    (trace : List OpsCall) (ec : Nat) (tag iN jN : ℚ) (ni nj : Node2) (N : Int)
    (hsub : subdivisionFor discs tag = N) (h1 : 1 < N)
    (hi : nodes.find? (fun n => decide (n.tag = iN)) = some ni)
    (hj : nodes.find? (fun n => decide (n.tag = jN)) = some nj) :
    ∃ st, discretizeElement discs nodes trace ec (tag, iN, jN) = some st ∧
      ∃ newNodes, st.nodes = nodes ++ newNodes ∧
        newNodes.length = N.toNat - 1 ∧
        (∀ k (hk : k < newNodes.length),
          (newNodes.get ⟨k, hk⟩).x = ni.x + ((k + 1 : ℕ) : ℚ) * (nj.x - ni.x) / (N : ℚ) ∧
          (newNodes.get ⟨k, hk⟩).y = ni.y + ((k + 1 : ℕ) : ℚ) * (nj.y - ni.y) / (N : ℚ)) ∧
        st.elems.length = N.toNat := by
  obtain ⟨Δ, hΔnodes, hΔlen, hΔcoords, helems⟩ :=
    discLoop_range_spec ni.x ni.y ((nj.x - ni.x) / (N : ℚ)) ((nj.y - ni.y) / (N : ℚ)) jN N h1
      ⟨nodes, [], trace, iN, ec⟩ N.toNat (le_refl _)
  set stN := (List.range N.toNat).foldl
    (discStep ni.x ni.y ((nj.x - ni.x) / (N : ℚ)) ((nj.y - ni.y) / (N : ℚ)) jN N)
    ⟨nodes, [], trace, iN, ec⟩ with hstN
  have hde : discretizeElement discs nodes trace ec (tag, iN, jN) = some stN := by
    rw [discretizeElement]
    simp only [hi, hj, hsub]
    rw [if_neg (by omega)]
  refine ⟨stN, hde, Δ, hΔnodes, ?_, ?_, ?_⟩
  · rw [hΔlen]
    omega
  · intro k hk
    obtain ⟨hx, hy⟩ := hΔcoords k hk
    rw [hx, hy]
    rw [mul_div_assoc, mul_div_assoc]
    exact ⟨rfl, rfl⟩
  · rw [helems]
    simp

/-- C1 witness: subdividing the element from `(0,0)` to `(6,0)` with `N = 2`
inserts the midpoint and yields two sub-elements. -/
theorem discretize_interpolation_witness :
    ∃ st, discretizeElement [((1 : ℚ), 2)] [⟨1, 0, 0⟩, ⟨2, 6, 0⟩] [] 1 (1, 1, 2) = some st ∧
      ∃ newNodes, st.nodes = [⟨1, 0, 0⟩, ⟨2, 6, 0⟩] ++ newNodes ∧
        newNodes.length = (2 : Int).toNat - 1 ∧
        (∀ k (hk : k < newNodes.length),
          (newNodes.get ⟨k, hk⟩).x =
            (Node2.mk 1 0 0).x + ((k + 1 : ℕ) : ℚ) *
              ((Node2.mk 2 6 0).x - (Node2.mk 1 0 0).x) / ((2 : Int) : ℚ) ∧
          (newNodes.get ⟨k, hk⟩).y =
            (Node2.mk 1 0 0).y + ((k + 1 : ℕ) : ℚ) *
              ((Node2.mk 2 6 0).y - (Node2.mk 1 0 0).y) / ((2 : Int) : ℚ)) ∧
        st.elems.length = (2 : Int).toNat :=
  discretize_interpolation [((1 : ℚ), 2)] [⟨1, 0, 0⟩, ⟨2, 6, 0⟩] [] 1 1 1 2 ⟨1, 0, 0⟩ ⟨2, 6, 0⟩ 2
    (by with_unfolding_all decide) (by decide)
    (by with_unfolding_all decide) (by with_unfolding_all decide)

/-- C2: with subdivision count 1 the element is reproduced unchanged: no
node is inserted and exactly one sub-element connecting the original
endpoints is created. -/
theorem discretize_single (discs : List (ℚ × ℚ)) (nodes : List Node2)
    (trace : List OpsCall) (ec : Nat) (tag iN jN : ℚ) (ni nj : Node2)
    (hsub : subdivisionFor discs tag = 1)
    (hi : nodes.find? (fun n => decide (n.tag = iN)) = some ni)
    (hj : nodes.find? (fun n => decide (n.tag = jN)) = some nj) :
    ∃ st, discretizeElement discs nodes trace ec (tag, iN, jN) = some st ∧
      st.nodes = nodes ∧ st.elems = [⟨ec, iN, jN⟩] := by
  set stN := (List.range (1 : Int).toNat).foldl
    (discStep ni.x ni.y ((nj.x - ni.x) / ((1 : Int) : ℚ)) ((nj.y - ni.y) / ((1 : Int) : ℚ)) jN 1)
    ⟨nodes, [], trace, iN, ec⟩ with hstN
  have hde : discretizeElement discs nodes trace ec (tag, iN, jN) = some stN := by
    rw [discretizeElement]
    simp only [hi, hj, hsub]
    rw [if_neg (by omega)]
  have hred : stN = discStep ni.x ni.y ((nj.x - ni.x) / ((1 : Int) : ℚ))
      ((nj.y - ni.y) / ((1 : Int) : ℚ)) jN 1 ⟨nodes, [], trace, iN, ec⟩ 0 := by
    rw [hstN]
    have hr1 : List.range (1 : Int).toNat = [0] := rfl
    rw [hr1, List.foldl_cons, List.foldl_nil]
  refine ⟨stN, hde, ?_, ?_⟩
  · rw [hred]
    simp only [discStep]
    rw [if_neg (by omega)]
  · rw [hred]
    simp only [discStep]
    rw [if_neg (by omega)]
    simp

/-- C2 witness: subdivision 1 of the element from node 1 to node 2 leaves
the node list unchanged and produces the single original element. -/
theorem discretize_single_witness :
    ∃ st, discretizeElement [((1 : ℚ), 1)] [⟨1, 0, 0⟩, ⟨2, 6, 0⟩] [] 1 (1, 1, 2) = some st ∧
      st.nodes = [⟨1, 0, 0⟩, ⟨2, 6, 0⟩] ∧ st.elems = [⟨1, 1, 2⟩] :=
  discretize_single [((1 : ℚ), 1)] [⟨1, 0, 0⟩, ⟨2, 6, 0⟩] [] 1 1 1 2 ⟨1, 0, 0⟩ ⟨2, 6, 0⟩
    (by with_unfolding_all decide) (by with_unfolding_all decide) (by with_unfolding_all decide)

/-! ## Displacement collection and scale factors -/

/-- A displacement oracle whose x-query succeeds and whose y-query raises. -/
def dispXOnly : ℚ → Nat → Option ℚ :=
  fun _ d => if d = 1 then some 5 else none

/-- C7 counterexample: node 1's y-displacement query fails, yet the node is
not omitted from both lists: the x-value appended before the exception
stays, so the x-list gains an entry while the y-list does not. -/
theorem disp_collection_cx :
    dispXOnly 1 2 = none ∧ collectDisps dispXOnly [⟨1, 0, 0⟩] = ([5], []) := by
  decide

/-- C7 (amended): a node whose x-displacement query fails contributes to
neither list; a node whose x-query succeeds contributes `|ux|` to the
x-list even when its y-query then fails, and contributes `|uy|` to the
y-list only when both queries succeed.  No failure is reported. -/
theorem disp_collection (disp : ℚ → Nat → Option ℚ) (nodes : List Node2) :
    (collectDisps disp nodes).1 =
      nodes.filterMap (fun n => (disp n.tag 1).map (fun u => |u|)) ∧
    (collectDisps disp nodes).2 =
      nodes.filterMap (fun n =>
        (disp n.tag 1).bind (fun _ => (disp n.tag 2).map (fun u => |u|))) := by
  induction nodes with
  | nil => exact ⟨rfl, rfl⟩
  | cons n rest ih =>
    cases h1 : disp n.tag 1 with
    | none =>
      simp only [collectDisps, h1, List.filterMap_cons, Option.map_none', Option.bind]
      exact ih
    | some u1 =>
      cases h2 : disp n.tag 2 with
      | none =>
        simp only [collectDisps, h1, h2, List.filterMap_cons, Option.map_some',
          Option.map_none', Option.some_bind]
        exact ⟨by rw [ih.1], by rw [ih.2]⟩
      | some u2 =>
        simp only [collectDisps, h1, h2, List.filterMap_cons, Option.map_some',
          Option.some_bind]
        exact ⟨by rw [ih.1], by rw [ih.2]⟩

/-- C9: both post-hoc scale computations are guarded: the deformed-shape
factor always exists and equals the minimum over the two axes of
`0.01 * range / u_max` when `u_max > 0` (1.0 for that axis otherwise), and
the force-diagram factor always exists and equals `1 / maxAbs` when the
peak magnitude is nonzero and 1.0 otherwise — no division by zero occurs
for any input. -/
theorem scale_factors_guarded :
    (∀ (disp : ℚ → Nat → Option ℚ) (nodes : List Node2),
      defoSfac disp nodes = some (
        min
          (if 0 < maxOrZero (collectDisps disp nodes).1
            then 1 / 100 * axisRange (nodes.map Node2.x) / maxOrZero (collectDisps disp nodes).1
            else 1)
          (if 0 < maxOrZero (collectDisps disp nodes).2
            then 1 / 100 * axisRange (nodes.map Node2.y) / maxOrZero (collectDisps disp nodes).2
            else 1)))
    ∧ (∀ lo hi : ℚ,
        diagSfac lo hi = some (if max |lo| |hi| ≠ 0 then 1 / max |lo| |hi| else 1)) := by
  constructor
  · intro disp nodes
    rw [defoSfac]
    by_cases hx : 0 < maxOrZero (collectDisps disp nodes).1 <;>
      by_cases hy : 0 < maxOrZero (collectDisps disp nodes).2
    · simp [pyDiv, hx, hy, ne_of_gt hx, ne_of_gt hy]
    · simp [pyDiv, hx, hy, ne_of_gt hx]
    · simp [pyDiv, hx, hy, ne_of_gt hy]
    · simp [pyDiv, hx, hy]
  · intro lo hi
    rw [diagSfac]
    by_cases h : max |lo| |hi| = 0
    · simp [h, pyDiv]
    · simp [h, pyDiv]

/-! ## The fixed analysis configuration pipeline -/

theorem analyze_imp_config (c : OpsCall) (h : isAnalyzeCall c = true) :
    isConfigCall c = true := by
  cases c <;> first | rfl | cases h

theorem filter_countP_of_nonconfig {l : List OpsCall}
    (h : ∀ c ∈ l, isConfigCall c = false) :
    l.filter isConfigCall = [] ∧ l.countP isAnalyzeCall = 0 := by
  constructor
  · rw [List.filter_eq_nil_iff]
    intro c hc
    simp [h c hc]
  · rw [List.countP_eq_zero]
    intro c hc hA
    have := h c hc
    rw [analyze_imp_config c hA] at this
    cases this

theorem nonconfig_map {α : Type} (f : α → OpsCall)
    (hf : ∀ x, isConfigCall (f x) = false) (l : List α) :
    ∀ c ∈ l.map f, isConfigCall c = false := by
  intro c hc
  obtain ⟨x, _, rfl⟩ := List.mem_map.mp hc
  exact hf x

theorem nonconfig_append {A B : List OpsCall}
    (hA : ∀ c ∈ A, isConfigCall c = false) (hB : ∀ c ∈ B, isConfigCall c = false) :
    ∀ c ∈ A ++ B, isConfigCall c = false := by
  intro c hc
  rcases List.mem_append.mp hc with h | h
  · exact hA c h
  · exact hB c h

/-- A trace consisting of non-configuration calls around one copy of the
configuration block filters to exactly that block and contains exactly one
solve trigger. -/
theorem trace_config_spec (A B : List OpsCall)
    (hA : ∀ c ∈ A, isConfigCall c = false) (hB : ∀ c ∈ B, isConfigCall c = false) :
    (A ++ analysisConfigCalls ++ B).filter isConfigCall = analysisConfigCalls ∧
    (A ++ analysisConfigCalls ++ B).countP isAnalyzeCall = 1 := by
  have hfA := filter_countP_of_nonconfig hA
  have hfB := filter_countP_of_nonconfig hB
  constructor
  · rw [List.filter_append, List.filter_append, hfA.1, hfB.1, List.nil_append, List.append_nil]
    rfl
  · rw [List.countP_append, List.countP_append, hfA.2, hfB.2]
    have hcfg : analysisConfigCalls.countP isAnalyzeCall = 1 := rfl
    omega

theorem discLoop_trace_nonconfig (xi yi dx dy jN : ℚ) (N : Int) :
    ∀ (js : List Nat) (st : DiscSt),
      (∀ c ∈ st.trace, isConfigCall c = false) →
      ∀ c ∈ ((js.foldl (discStep xi yi dx dy jN N) st).trace), isConfigCall c = false := by
  intro js
  induction js with
  | nil => exact fun st h => h
  | cons j js ih =>
    intro st h
    rw [List.foldl_cons]
    refine ih _ ?_
    intro c hc
    by_cases hi : ((j : Int) + 1) < N
    · simp only [discStep, if_pos hi] at hc
      rcases List.mem_append.mp hc with hc' | hc'
      · rcases List.mem_append.mp hc' with hc'' | hc''
        · exact h c hc''
        · rw [List.mem_singleton.mp hc'']
          rfl
      · rw [List.mem_singleton.mp hc']
        rfl
    · simp only [discStep, if_neg hi] at hc
      rcases List.mem_append.mp hc with hc' | hc'
      · exact h c hc'
      · rw [List.mem_singleton.mp hc']
        rfl

theorem discretizeElement_trace_nonconfig (discs : List (ℚ × ℚ)) (nodes : List Node2)
    (trace : List OpsCall) (ec : Nat) (e : ℚ × ℚ × ℚ) (st : DiscSt)
    (h : discretizeElement discs nodes trace ec e = some st)
    (hin : ∀ c ∈ trace, isConfigCall c = false) :
    ∀ c ∈ st.trace, isConfigCall c = false := by
  rw [discretizeElement] at h
  split at h
  case h_2 => cases h
  case h_1 ni nj hfi hfj =>
    split at h
    · cases h
    · injection h with h'
      rw [← h']
      exact discLoop_trace_nonconfig _ _ _ _ _ _ _ ⟨nodes, [], trace, e.2.1, ec⟩ hin

theorem runDisc_trace_nonconfig (discs : List (ℚ × ℚ)) :
    ∀ (es : List (ℚ × ℚ × ℚ)) (nodes : List Node2) (trace : List OpsCall)
      (elems : List ElemRec) (ec : Nat),
      (∀ c ∈ trace, isConfigCall c = false) →
      ∀ c ∈ (runDiscretization discs es nodes trace elems ec).trace, isConfigCall c = false := by
  intro es
  induction es with
  | nil =>
    intro nodes trace elems ec h c hc
    rw [runDiscretization] at hc
    exact h c hc
  | cons e es ih =>
    intro nodes trace elems ec h c hc
    rw [runDiscretization] at hc
    split at hc
    · exact h c hc
    case h_2 st heq =>
      exact ih st.nodes st.trace (elems ++ st.elems) st.ec
        (discretizeElement_trace_nonconfig discs nodes trace ec e st heq h) c hc

theorem run_analysis_ok_iff (m : Model2D) :
    (run_analysis m).ok = true ↔
      (runDiscretization m.discretizations m.elements m.nodes [] [] 1).ok = true := by
  simp only [run_analysis]
  by_cases h : (runDiscretization m.discretizations m.elements m.nodes [] [] 1).ok = true
  · rw [if_pos h]
    simp [h]
  · rw [if_neg h]
    simp [h]

theorem run_analysis_trace_ok (m : Model2D)
    (hdok : (runDiscretization m.discretizations m.elements m.nodes [] [] 1).ok = true) :
    (run_analysis m).trace =
      (([OpsCall.wipe, OpsCall.modelCmd 2 3]
          ++ m.nodes.map (fun n => OpsCall.node n.tag [n.x, n.y])
          ++ m.boundary_conds.map (fun bc => OpsCall.fix bc.1 [bc.2.1, bc.2.2.1, bc.2.2.2])
          ++ [OpsCall.geomTransf ("Linear") 1 []])
        ++ (runDiscretization m.discretizations m.elements m.nodes [] [] 1).trace
        ++ [OpsCall.timeSeries ("Constant") 1, OpsCall.pattern ("Plain") 1 1]
        ++ m.point_loads.map (fun l => OpsCall.load l.1 [l.2.1, l.2.2.1, l.2.2.2])
        ++ m.uniform_loads.map (fun ul => OpsCall.eleLoad ul.1 ("-beamUniform") [ul.2.1, ul.2.2]))
      ++ analysisConfigCalls ++ [] := by
  simp only [run_analysis]
  rw [if_pos hdok, List.append_nil]

/-- The engine-call trace of a completed `run_analysis` has exactly the
fixed configuration block as its configuration calls, with one solve. -/
theorem run_analysis_config (m : Model2D) (hok : (run_analysis m).ok = true) :
    (run_analysis m).trace.filter isConfigCall = analysisConfigCalls ∧
    (run_analysis m).trace.countP isAnalyzeCall = 1 := by
  have hdok := (run_analysis_ok_iff m).mp hok
  rw [run_analysis_trace_ok m hdok]
  refine trace_config_spec _ _ ?_ (fun c hc => absurd hc (List.not_mem_nil c))
  refine nonconfig_append (nonconfig_append (nonconfig_append (nonconfig_append ?_ ?_) ?_) ?_) ?_
  · refine nonconfig_append (nonconfig_append (nonconfig_append ?_ ?_) ?_) ?_
    · intro c hc
      rcases List.mem_cons.mp hc with rfl | hc'
      · rfl
      · rw [List.mem_singleton.mp hc']
        rfl
    · intro c hc
      obtain ⟨x, -, rfl⟩ := List.mem_map.mp hc
      rfl
    · intro c hc
      obtain ⟨x, -, rfl⟩ := List.mem_map.mp hc
      rfl
    · intro c hc
      rw [List.mem_singleton.mp hc]
      rfl
  · exact runDisc_trace_nonconfig m.discretizations m.elements m.nodes [] [] 1
      (fun c hc => absurd hc (List.not_mem_nil c))
  · intro c hc
    rcases List.mem_cons.mp hc with rfl | hc'
    · rfl
    · rw [List.mem_singleton.mp hc']
      rfl
  · intro c hc
    obtain ⟨x, -, rfl⟩ := List.mem_map.mp hc
    rfl
  · intro c hc
    obtain ⟨x, -, rfl⟩ := List.mem_map.mp hc
    rfl

theorem forall2_mem_right {α β : Type} {R : α → β → Prop} {P : β → Prop}
    (hf : ∀ a b, R a b → P b) :
    ∀ {l : List α} {r : List β}, List.Forall₂ R l r → ∀ b ∈ r, P b := by
  intro l r h
  induction h with
  | nil => intro b hb; cases hb
  | cons hab _ ih =>
    intro b hb
    rcases List.mem_cons.mp hb with rfl | hb'
    · exact hf _ _ hab
    · exact ih b hb'

theorem mapOpt_mem_prop {α β : Type} {f : α → Option β} {P : β → Prop}
    (hf : ∀ a b, f a = some b → P b) {l : List α} {r : List β}
    (h : mapOpt f l = some r) : ∀ b ∈ r, P b :=
  forall2_mem_right hf (mapOpt_eq_some.mp h)

theorem bind_eq_some_iff {α β : Type} {x : Option α} {f : α → Option β} {b : β} :
    (x >>= f) = some b ↔ ∃ a, x = some a ∧ f a = some b :=
  Option.bind_eq_some

theorem nodeCallsOf_nonconfig {s : List Char} {L : List OpsCall}
    (h : nodeCallsOf s = some L) : ∀ c ∈ L, isConfigCall c = false := by
  refine mapOpt_mem_prop ?_ h
  intro line c hc
  rw [bind_eq_some_iff] at hc
  obtain ⟨vs, -, hc⟩ := hc
  split at hc
  · injection hc with hc'
    rw [← hc']
    rfl
  · cases hc

theorem transfCallsOf_nonconfig {s : List Char} {L : List OpsCall}
    (h : transfCallsOf s = some L) : ∀ c ∈ L, isConfigCall c = false := by
  refine mapOpt_mem_prop ?_ h
  intro line c hc
  rw [bind_eq_some_iff] at hc
  obtain ⟨vs, -, hc⟩ := hc
  split at hc
  · injection hc with hc'
    rw [← hc']
    rfl
  · cases hc

theorem fixCallsOf_nonconfig {s : List Char} {L : List OpsCall}
    (h : fixCallsOf s = some L) : ∀ c ∈ L, isConfigCall c = false := by
  refine mapOpt_mem_prop ?_ h
  intro line c hc
  rw [bind_eq_some_iff] at hc
  obtain ⟨vs, -, hc⟩ := hc
  split at hc
  · injection hc with hc'
    rw [← hc']
    rfl
  · cases hc

theorem massCallsOf_nonconfig {s : List Char} {L : List OpsCall}
    (h : massCallsOf s = some L) : ∀ c ∈ L, isConfigCall c = false := by
  refine mapOpt_mem_prop ?_ h
  intro line c hc
  rw [bind_eq_some_iff] at hc
  obtain ⟨vs, -, hc⟩ := hc
  split at hc
  · injection hc with hc'
    rw [← hc']
    rfl
  · cases hc

theorem elemCallsOf_nonconfig {s : List Char} {L : List OpsCall}
    (h : elemCallsOf s = some L) : ∀ c ∈ L, isConfigCall c = false := by
  refine mapOpt_mem_prop ?_ h
  intro line c hc
  rw [bind_eq_some_iff] at hc
  obtain ⟨vs, -, hc⟩ := hc
  split at hc
  · injection hc with hc'
    rw [← hc']
    rfl
  · cases hc

theorem loadCallsOf_nonconfig {s : List Char} {L : List OpsCall}
    (h : loadCallsOf s = some L) : ∀ c ∈ L, isConfigCall c = false := by
  refine mapOpt_mem_prop ?_ h
  intro line c hc
  rw [bind_eq_some_iff] at hc
  obtain ⟨vs, -, hc⟩ := hc
  split at hc
  · injection hc with hc'
    rw [← hc']
    rfl
  · cases hc

/-- The engine-call trace of a 3D run that reaches the analysis stage has
exactly the fixed configuration block as its configuration calls, with one
solve (the later `eigen` extraction is not a configuration call). -/
theorem test3d_config (ns es ts fs ms ls : List Char) (t3 : List OpsCall)
    (h : test3d_run ns es ts fs ms ls = some t3) :
    t3.filter isConfigCall = analysisConfigCalls ∧ t3.countP isAnalyzeCall = 1 := by
  rw [test3d_run] at h
  rw [bind_eq_some_iff] at h
  obtain ⟨nodeCalls, hn, h⟩ := h
  rw [bind_eq_some_iff] at h
  obtain ⟨transCalls, ht, h⟩ := h
  rw [bind_eq_some_iff] at h
  obtain ⟨fixCalls, hf, h⟩ := h
  rw [bind_eq_some_iff] at h
  obtain ⟨massCalls, hm, h⟩ := h
  rw [bind_eq_some_iff] at h
  obtain ⟨elemCalls, he, h⟩ := h
  rw [bind_eq_some_iff] at h
  obtain ⟨loadCalls, hl, h⟩ := h
  injection h with h'
  rw [← h']
  have hshape :
      ([OpsCall.wipe, OpsCall.modelCmd 3 6]
          ++ nodeCalls ++ transCalls ++ fixCalls ++ massCalls ++ elemCalls
          ++ [OpsCall.timeSeries ("Constant") 1, OpsCall.pattern ("Plain") 1 1]
          ++ loadCalls
          ++ analysisConfigCalls
          ++ [OpsCall.eigen 6]) =
        (([OpsCall.wipe, OpsCall.modelCmd 3 6]
          ++ nodeCalls ++ transCalls ++ fixCalls ++ massCalls ++ elemCalls
          ++ [OpsCall.timeSeries ("Constant") 1, OpsCall.pattern ("Plain") 1 1]
          ++ loadCalls)
          ++ analysisConfigCalls
          ++ [OpsCall.eigen 6]) := by
    simp [List.append_assoc]
  rw [hshape]
  refine trace_config_spec _ _ ?_ ?_
  · refine nonconfig_append (nonconfig_append (nonconfig_append (nonconfig_append
      (nonconfig_append (nonconfig_append (nonconfig_append ?_ ?_) ?_) ?_) ?_) ?_) ?_) ?_
    · intro c hc
      rcases List.mem_cons.mp hc with rfl | hc'
      · rfl
      · rw [List.mem_singleton.mp hc']
        rfl
    · exact nodeCallsOf_nonconfig hn
    · exact transfCallsOf_nonconfig ht
    · exact fixCallsOf_nonconfig hf
    · exact massCallsOf_nonconfig hm
    · exact elemCallsOf_nonconfig he
    · intro c hc
      rcases List.mem_cons.mp hc with rfl | hc'
      · rfl
      · rw [List.mem_singleton.mp hc']
        rfl
    · exact loadCallsOf_nonconfig hl
  · intro c hc
    rw [List.mem_singleton.mp hc]
    rfl

/-- C8: the analysis configuration sequence is fixed and model-independent:
any two 2D models whose runs reach the configuration stage issue the same
configuration calls — constraints 'Transformation', numberer 'RCM', system
'BandGeneral', test 'NormDispIncr' (1e-6, 6), algorithm 'Linear',
integrator 'LoadControl' 1, analysis 'Static' — with exactly one analyze
step, and the module-level 3D driver issues the identical sequence. -/
theorem fixed_config_pipeline (m₁ m₂ : Model2D) (ns es ts fs ms ls : List Char)
    (h₁ : (run_analysis m₁).ok = true) (h₂ : (run_analysis m₂).ok = true)
    (h₃ : (test3d_run ns es ts fs ms ls).isSome = true) :
    (run_analysis m₁).trace.filter isConfigCall =
      (run_analysis m₂).trace.filter isConfigCall ∧
    (run_analysis m₁).trace.filter isConfigCall = analysisConfigCalls ∧
    ((test3d_run ns es ts fs ms ls).getD []).filter isConfigCall = analysisConfigCalls ∧
    (run_analysis m₁).trace.countP isAnalyzeCall = 1 ∧
    ((test3d_run ns es ts fs ms ls).getD []).countP isAnalyzeCall = 1 := by
  obtain ⟨t3, ht3⟩ := Option.isSome_iff_exists.mp h₃
  have hc1 := run_analysis_config m₁ h₁
  have hc2 := run_analysis_config m₂ h₂
  have hc3 := test3d_config ns es ts fs ms ls t3 ht3
  rw [ht3, Option.getD_some]
  exact ⟨hc1.1.trans hc2.1.symm, hc1.1, hc3.1, hc1.2, hc3.2⟩

/-- C8 witness: two distinct small 2D models and one parseable 3D input all
reach the configuration stage and issue the identical fixed sequence. -/
theorem fixed_config_pipeline_witness :
    (run_analysis ⟨[⟨1, 0, 0⟩, ⟨2, 0, 4⟩], [(1, 1, 2)], [], [], [], [(1, 1)]⟩).trace.filter
        isConfigCall =
      (run_analysis ⟨[⟨1, 0, 0⟩, ⟨2, 6, 0⟩, ⟨3, 6, 4⟩], [(1, 1, 2), (2, 2, 3)], [], [], [],
        []⟩).trace.filter isConfigCall ∧
    (run_analysis ⟨[⟨1, 0, 0⟩, ⟨2, 0, 4⟩], [(1, 1, 2)], [], [], [], [(1, 1)]⟩).trace.filter
        isConfigCall = analysisConfigCalls ∧
    ((test3d_run (['1', ',', '0', ',', '0', ',', '0'])
        (['1', ',', '1', ',', '1', ',', '1', ',', '1', ',', '1', ',', '1', ',', '1', ',', '1',
          ',', '1'])
        (['1', ',', '0', ',', '0', ',', '1'])
        (['1', ',', '1', ',', '1', ',', '1', ',', '1', ',', '1', ',', '1'])
        (['1', ',', '1', ',', '1', ',', '1', ',', '1', ',', '1', ',', '1'])
        (['1', ',', '0', ',', '0', ',', '0', ',', '0', ',', '0', ',', '0'])).getD []).filter
        isConfigCall = analysisConfigCalls ∧
    (run_analysis ⟨[⟨1, 0, 0⟩, ⟨2, 0, 4⟩], [(1, 1, 2)], [], [], [], [(1, 1)]⟩).trace.countP
        isAnalyzeCall = 1 ∧
    ((test3d_run (['1', ',', '0', ',', '0', ',', '0'])
        (['1', ',', '1', ',', '1', ',', '1', ',', '1', ',', '1', ',', '1', ',', '1', ',', '1',
          ',', '1'])
        (['1', ',', '0', ',', '0', ',', '1'])
        (['1', ',', '1', ',', '1', ',', '1', ',', '1', ',', '1', ',', '1'])
        (['1', ',', '1', ',', '1', ',', '1', ',', '1', ',', '1', ',', '1'])
        (['1', ',', '0', ',', '0', ',', '0', ',', '0', ',', '0', ',', '0'])).getD []).countP
        isAnalyzeCall = 1 :=
  fixed_config_pipeline
    ⟨[⟨1, 0, 0⟩, ⟨2, 0, 4⟩], [(1, 1, 2)], [], [], [], [(1, 1)]⟩
    ⟨[⟨1, 0, 0⟩, ⟨2, 6, 0⟩, ⟨3, 6, 4⟩], [(1, 1, 2), (2, 2, 3)], [], [], [], []⟩
    (['1', ',', '0', ',', '0', ',', '0'])
    (['1', ',', '1', ',', '1', ',', '1', ',', '1', ',', '1', ',', '1', ',', '1', ',', '1',
      ',', '1'])
    (['1', ',', '0', ',', '0', ',', '1'])
    (['1', ',', '1', ',', '1', ',', '1', ',', '1', ',', '1', ',', '1'])
    (['1', ',', '1', ',', '1', ',', '1', ',', '1', ',', '1', ',', '1'])
    (['1', ',', '0', ',', '0', ',', '0', ',', '0', ',', '0', ',', '0'])
    (by with_unfolding_all decide) (by with_unfolding_all decide)
    (by with_unfolding_all decide)

end Frame
